import Mathlib

set_option maxRecDepth 150000

/-!
Verification development for the cmsauth Go package.

Go strings are modelled as lists of bytes (`GoStr`), matching the way the
source manipulates them: `len` is `List.length`, string comparison used by
`sort.Sort(StringList(...))` and `sort.Strings` is the bytewise lexicographic
order, which coincides with the lexicographic order on `List Nat`.
Case mapping (`strings.ToLower`) is modelled on the ASCII range; the header
names and values of this protocol are ASCII, where the Go Unicode mapping
agrees with the ASCII one.

`http.Header` is a Go map from string to string slice; it is modelled as an
association list with distinct keys.  A Go map lookup of an absent key yields
the zero value (the empty slice), and map assignment replaces the entry or
adds a new one.

SHA-1 and HMAC-SHA1 (crypto/sha1, crypto/hmac) are implemented concretely, so
that every digest the source computes is computed by the model as well.
-/

/-- Go strings as byte sequences. -/
abbrev GoStr := List Nat

/-- UTF-8 encoding of one character, as in a Go string literal. -/
def encodeChar (c : Char) : List Nat :=
  let n := c.toNat
  if n < 128 then [n]
  else if n < 2048 then [192 ||| (n >>> 6), 128 ||| (n &&& 63)]
  else if n < 65536 then [224 ||| (n >>> 12), 128 ||| ((n >>> 6) &&& 63), 128 ||| (n &&& 63)]
  else [240 ||| (n >>> 18), 128 ||| ((n >>> 12) &&& 63), 128 ||| ((n >>> 6) &&& 63), 128 ||| (n &&& 63)]

/-- Conversion of a Lean string literal to the byte sequence of the
corresponding Go string (UTF-8 bytes). -/
def gostr (s : String) : GoStr :=
  s.data.foldr (fun c acc => encodeChar c ++ acc) []

/-- ASCII lower-casing of one byte; models the action of strings.ToLower
on ASCII data. -/
def lowerByte (b : Nat) : Nat := if 65 ≤ b && b ≤ 90 then b + 32 else b

/-- Models strings.ToLower (ASCII range). -/
def goToLower (s : GoStr) : GoStr := s.map lowerByte

/-- leadsWith pat s is true when pat is a leading segment of s. -/
def leadsWith : GoStr → GoStr → Bool
  | [], _ => true
  | _ :: _, [] => false
  | a :: pa, b :: sb => a == b && leadsWith pa sb

/-- Models strings.HasPrefix s pat. -/
def goHasPre (s pat : GoStr) : Bool := leadsWith pat s

/-- Helper for goContains: scan every tail of the subject. -/
def goContainsAux (pat : GoStr) : GoStr → Bool
  | [] => leadsWith pat []
  | b :: t => leadsWith pat (b :: t) || goContainsAux pat t

/-- Models strings.Contains s pat. -/
def goContains (s pat : GoStr) : Bool := goContainsAux pat s

/-- Helper for replaceOnce: delete the first occurrence of old, substituting new. -/
def replaceOnceAux (old new : GoStr) : GoStr → GoStr
  | [] => []
  | a :: t => if leadsWith old (a :: t) then new ++ (a :: t).drop old.length
              else a :: replaceOnceAux old new t

/-- Models strings.Replace s old new 1 (replace the first occurrence; with an
empty pattern Go inserts new in front of s). -/
def replaceOnce (s old new : GoStr) : GoStr :=
  if old.isEmpty then new ++ s else replaceOnceAux old new s

/-- Fuel-driven replacement of every non-overlapping occurrence, scanning left
to right and continuing after each replacement, exactly as strings.Replace
with count -1 does.  The fuel bounds the number of consumed bytes; it is
always called with the length of the subject, which suffices because every
step consumes at least one byte of the subject. -/
def replaceAllFuel (old new : GoStr) : Nat → GoStr → GoStr
  | 0, s => s
  | _ + 1, [] => []
  | fuel + 1, a :: t =>
      if leadsWith old (a :: t) then new ++ replaceAllFuel old new fuel ((a :: t).drop old.length)
      else a :: replaceAllFuel old new fuel t

/-- Models strings.Replace s old new -1 for a non-empty pattern (the package
only uses it with the pattern //). -/
def replaceAllGo (s old new : GoStr) : GoStr :=
  if old.isEmpty then s else replaceAllFuel old new s.length s

/-- Lower-case hexadecimal digits of a number, minimal width; models the %x
verb of fmt on an integer. -/
def hexNat (n : Nat) : GoStr := (Nat.toDigits 16 n).map Char.toNat

/-! ### SHA-1 and HMAC-SHA1 (crypto/sha1, crypto/hmac) -/

/-- 32-bit left rotation. -/
def rotl (k n : Nat) : Nat := ((n <<< k) ||| (n >>> (32 - k))) % 4294967296

/-- SHA-1 round function. -/
def sha1F (t b c d : Nat) : Nat :=
  if t < 20 then (b &&& c) ||| ((4294967295 ^^^ b) &&& d)
  else if t < 40 then b ^^^ c ^^^ d
  else if t < 60 then (b &&& c) ||| (b &&& d) ||| (c &&& d)
  else b ^^^ c ^^^ d

/-- SHA-1 round constants. -/
def sha1K (t : Nat) : Nat :=
  if t < 20 then 1518500249
  else if t < 40 then 1859775393
  else if t < 60 then 2400959708
  else 3395469782

/-- Big-endian 32-bit words from a byte list. -/
def bytesToWords : List Nat → List Nat
  | b0 :: b1 :: b2 :: b3 :: rest => (((b0 * 256 + b1) * 256 + b2) * 256 + b3) :: bytesToWords rest
  | _ => []

/-- Extend the 16 block words to the 80-word message schedule. -/
def sha1Extend (w : List Nat) : List Nat :=
  (List.range 64).foldl (fun ws _ =>
    let i := ws.length
    ws ++ [rotl 1 (ws.getD (i - 3) 0 ^^^ ws.getD (i - 8) 0 ^^^ ws.getD (i - 14) 0 ^^^ ws.getD (i - 16) 0)]) w

/-- SHA-1 compression of one 16-word block. -/
def sha1CompressW (h : Nat × Nat × Nat × Nat × Nat) (block : List Nat) : Nat × Nat × Nat × Nat × Nat :=
  let w := sha1Extend block
  let (h0, h1, h2, h3, h4) := h
  let (a, b, c, d, e) := (List.range 80).foldl
    (fun (st : Nat × Nat × Nat × Nat × Nat) t =>
      let (a, b, c, d, e) := st
      let tmp := (rotl 5 a + sha1F t b c d + e + sha1K t + w.getD t 0) % 4294967296
      (tmp, a, rotl 30 b, c, d)) (h0, h1, h2, h3, h4)
  ((h0 + a) % 4294967296, (h1 + b) % 4294967296, (h2 + c) % 4294967296,
    (h3 + d) % 4294967296, (h4 + e) % 4294967296)

/-- Process the padded message, 16 words per block. -/
def sha1Words (h : Nat × Nat × Nat × Nat × Nat) : List Nat → Nat × Nat × Nat × Nat × Nat
  | w0 :: w1 :: w2 :: w3 :: w4 :: w5 :: w6 :: w7 :: w8 :: w9 :: w10 :: w11 :: w12 :: w13 :: w14 :: w15 :: rest =>
      sha1Words (sha1CompressW h [w0, w1, w2, w3, w4, w5, w6, w7, w8, w9, w10, w11, w12, w13, w14, w15]) rest
  | _ => h

/-- Merkle-Damgard padding of SHA-1: a 1 bit, zeros, and the 64-bit
big-endian bit length. -/
def sha1Pad (msg : List Nat) : List Nat :=
  let len := msg.length
  let k := (120 - ((len + 1) % 64)) % 64
  msg ++ [128] ++ List.replicate k 0 ++ (List.range 8).map (fun i => ((8 * len) >>> (8 * (7 - i))) % 256)

/-- Big-endian bytes of one 32-bit word. -/
def wordBytes (n : Nat) : List Nat := [(n >>> 24) % 256, (n >>> 16) % 256, (n >>> 8) % 256, n % 256]

/-- SHA-1 digest (20 bytes) of a byte sequence. -/
def sha1Bytes (msg : List Nat) : List Nat :=
  let h := sha1Words (1732584193, 4023233417, 2562383102, 271733878, 3285377520) (bytesToWords (sha1Pad msg))
  wordBytes h.1 ++ wordBytes h.2.1 ++ wordBytes h.2.2.1 ++ wordBytes h.2.2.2.1 ++ wordBytes h.2.2.2.2

/-- One lower-case hex digit as a byte. -/
def hexDigitB (n : Nat) : Nat := if n < 10 then 48 + n else 87 + n

/-- Lower-case hex string of a byte sequence; models the %x verb of fmt on a
byte slice (two digits per byte). -/
def bytesToHexGo (l : List Nat) : GoStr :=
  l.foldr (fun b acc => hexDigitB (b / 16) :: hexDigitB (b % 16) :: acc) []

/-- HMAC-SHA1 (crypto/hmac with crypto/sha1), block size 64. -/
def hmacSha1 (key msg : List Nat) : List Nat :=
  let k1 := if 64 < key.length then sha1Bytes key else key
  let k2 := k1 ++ List.replicate (64 - k1.length) 0
  sha1Bytes ((k2.map (fun b => b ^^^ 92)) ++ sha1Bytes ((k2.map (fun b => b ^^^ 54)) ++ msg))

/-! ### http.Header model -/

/-- http.Header: a map from header name to list of values, as an association
list.  Go maps have distinct keys; theorems assume key distinctness where it
matters. -/
abbrev Headers := List (GoStr × List GoStr)

/-- Go map lookup over a string-keyed association list. -/
def mapLookup {α : Type} (d : List (GoStr × α)) (k : GoStr) : Option α :=
  (d.find? (fun kv => kv.1 == k)).map (fun kv => kv.2)

/-- The key set of a Go map, in representation order. -/
def mapKeys {α : Type} (d : List (GoStr × α)) : List GoStr := d.map (fun kv => kv.1)

/-- Go map assignment: replace the entry with this key, or add one. -/
def mapInsert {α : Type} (d : List (GoStr × α)) (k : GoStr) (v : α) : List (GoStr × α) :=
  if k ∈ mapKeys d then d.map (fun kv => if kv.1 = k then (k, v) else kv)
  else d ++ [(k, v)]

/-- Header lookup returning the Go zero value (nil slice) for an absent key. -/
def hdrLookupD (hs : Headers) (k : GoStr) : List GoStr := (mapLookup hs k).getD []

/-- Token bytes allowed in a MIME header field name (net/textproto
validHeaderFieldByte). -/
def validHeaderFieldByte (b : Nat) : Bool :=
  (48 ≤ b && b ≤ 57) || (97 ≤ b && b ≤ 122) || (65 ≤ b && b ≤ 90) ||
  b == 33 || b == 35 || b == 36 || b == 37 || b == 38 || b == 39 || b == 42 ||
  b == 43 || b == 45 || b == 46 || b == 94 || b == 95 || b == 96 || b == 124 || b == 126

/-- The canonicalizing sweep of net/textproto: upper-case a letter at the
start and after a hyphen, lower-case every other letter. -/
def canonSweep : Bool → GoStr → GoStr
  | _, [] => []
  | up, c :: t =>
      let c2 := if up && 97 ≤ c && c ≤ 122 then c - 32
                else if !up && 65 ≤ c && c ≤ 90 then c + 32
                else c
      c2 :: canonSweep (c2 == 45) t

/-- net/textproto CanonicalMIMEHeaderKey: canonical MIME casing when every
byte is a valid token byte, the input unchanged otherwise. -/
def canonicalMIMEHeaderKey (s : GoStr) : GoStr :=
  if s.all validHeaderFieldByte then canonSweep true s else s

/-- http.Header.Get: look up the canonical MIME form of the name and return
the first value, or the empty string when absent or empty. -/
def headerGet (hs : Headers) (k : GoStr) : GoStr :=
  (hdrLookupD hs (canonicalMIMEHeaderKey k)).headD []

/-! ### CMSAuth (authz.go) -/

/-- CMSAuth holds the auth file name and the key bytes read from it. -/
structure CMSAuth where
  afile : GoStr
  hkey : List Nat

/-- sort.Sort(StringList(...)) and sort.Strings: ascending bytewise
lexicographic sort of a string list. -/
def sortStrings (l : List GoStr) : List GoStr := List.insertionSort (· ≤ ·) l

/-- The selection predicate of checkAuthentication and GetHmac on the
lower-cased header name: a cms-authn or cms-authz header other than the
signature carrier cms-authn-hmac. -/
def selHdr (key : GoStr) : Bool :=
  (goHasPre key (gostr "cms-authn") || goHasPre key (gostr "cms-authz")) &&
    !(key == gostr "cms-authn-hmac")

/-- The condition under which checkAuthentication writes the stripped header:
a selected header whose lower-cased name starts with cms-authn. -/
def selAuthn (key : GoStr) : Bool := selHdr key && goHasPre key (gostr "cms-authn")

/-- The name under which checkAuthentication republishes a cms-authn header:
the lower-cased name with the first occurrence of cms-authn- removed. -/
def stripName (kkk : GoStr) : GoStr := replaceOnce (goToLower kkk) (gostr "cms-authn-") []

/-- One iteration of the header loop of checkAuthentication, lines 59 to 72 of
authz.go.  The state is (prefix accumulator, suffix accumulator, hmacValue,
current header map); values are read from the current map, which earlier
iterations may have extended.  The source indexes values[0], which panics on
an empty value slice; the model reads the empty string there and the theorems
assume non-empty value lists. -/
def checkAuthStep (st : GoStr × GoStr × GoStr × Headers) (kkk : GoStr) : GoStr × GoStr × GoStr × Headers :=
  let values := hdrLookupD st.2.2.2 kkk
  let key := goToLower kkk
  let v0 := values.headD []
  let sel := selHdr key
  ( if sel then st.1 ++ [104] ++ hexNat key.length ++ [118] ++ hexNat v0.length else st.1,
    if sel then st.2.1 ++ key ++ v0 else st.2.1,
    if key == gostr "cms-authn-hmac" then v0 else st.2.2.1,
    if selAuthn key then mapInsert st.2.2.2 (stripName kkk) values else st.2.2.2 )

/-- The header loop of checkAuthentication: collect the keys, sort them, and
fold the loop body over them. -/
def checkAuthLoop (headers : Headers) : GoStr × GoStr × GoStr × Headers :=
  (sortStrings (mapKeys headers)).foldl checkAuthStep ([], [], [], headers)

/-- The canonical signing string built during verification:
prefix ++ # ++ suffix. -/
def canonicalSigningString (headers : Headers) : GoStr :=
  let st := checkAuthLoop headers
  st.1 ++ [35] ++ st.2.1

/-- checkAuthentication of authz.go.  Returns the boolean outcome and the
final (mutated) header map.  The source assigns headers[cms-auth-status] to an
interface variable and compares it with nil; an absent key yields an interface
holding a typed nil slice, so that comparison is false and the early return is
never taken: the lookup simply produces the zero value, the empty list. -/
def checkAuthentication (a : CMSAuth) (headers : Headers) : Bool × Headers :=
  let values := hdrLookupD headers (gostr "cms-auth-status")
  if values == [gostr "NONE"] then (true, headers)
  else
    let st := checkAuthLoop headers
    let value := st.1 ++ [35] ++ st.2.1
    let hmacFound := bytesToHexGo (if a.afile.length != 0 then hmacSha1 a.hkey value else sha1Bytes value)
    (hmacFound == st.2.2.1, st.2.2.2)

/-- One iteration of the signing loop of GetHmac: header name length and
first-value length into the prefix, lower-cased name and first value into the
suffix.  Values are read with r.Header.Get, which looks up the canonical MIME
form of the name. -/
def getHmacStep (hs : Headers) (ps : GoStr × GoStr) (h : GoStr) : GoStr × GoStr :=
  let v := headerGet hs h
  (ps.1 ++ [104] ++ hexNat h.length ++ [118] ++ hexNat v.length,
   ps.2 ++ goToLower h ++ v)

/-- GetHmac of the package: select the trust headers, sort their names, build
the canonical string and return the keyed HMAC-SHA1 hex digest.  The source
also returns an always-nil error, which is omitted. -/
def GetHmac (a : CMSAuth) (headers : Headers) : GoStr :=
  let hkeys := (mapKeys headers).filter (fun h => selHdr (goToLower h))
  let ps := (sortStrings hkeys).foldl (getHmacStep headers) ([], [])
  bytesToHexGo (hmacSha1 a.hkey (ps.1 ++ [35] ++ ps.2))

/-- CheckCMSAuthz: scan every header whose lower-cased name starts with
cms-authz and contains the lower-cased role, and succeed as soon as one of its
values contains, case-insensitively, the group or the site as a substring. -/
def CheckCMSAuthz (header : Headers) (role group site : GoStr) : Bool :=
  header.any (fun kv =>
    (goHasPre (goToLower kv.1) (gostr "cms-authz") &&
      goContains (goToLower kv.1) (goToLower role)) &&
    kv.2.any (fun val =>
      let v := goToLower val
      goContains v (goToLower group) || goContains v (goToLower site)))

/-! ### CRIC identity directory (cric.go) -/

/-- CricEntry of cric.go.  ID is an int64 in the source, modelled as Int;
Roles is a Go map from role name to token list, modelled as an association
list. -/
structure CricEntry where
  DN : GoStr
  DNs : List GoStr
  SortedDN : GoStr
  ID : Int
  Login : GoStr
  Name : GoStr
  Roles : List (GoStr × List GoStr)
deriving DecidableEq

/-- CricRecords: the directory map from key to entry, as an association
list with distinct keys. -/
abbrev CricRecords := List (GoStr × CricEntry)

/-- Decimal rendering of an int64, as the %d verb of fmt produces it. -/
def intDec (i : Int) : GoStr := gostr (toString i)

/-- The key selected from an entry by the key policy token of
getCricRecordsByKey; none models the unsupported branch. -/
def cricKey (key : GoStr) (rec : CricEntry) : Option GoStr :=
  if goToLower key == gostr "login" then some rec.Login
  else if goToLower key == gostr "id" then some (intDec rec.ID)
  else if goToLower key == gostr "name" then some rec.Name
  else if goToLower key == gostr "dn" then some rec.DN
  else none

/-- The message of the error raised for an unsupported key policy token. -/
def unsupportedKeyMsg (key : GoStr) : GoStr :=
  gostr "provided key=" ++ key ++ gostr " is not supported"

/-- The entry loop of getCricRecordsByKey: on a duplicate key the stored DN
list is extended with the DN of the later entry and the later entry (with
that list) replaces the stored record; on a new key the entry is stored with
its own DN appended to its DN list.  The verbose duplicate report is output
only and does not affect the result. -/
def getCricRecordsByKeyAux (key : GoStr) (acc : CricRecords) : List CricEntry → CricRecords × Option GoStr
  | [] => (acc, none)
  | rec :: rest =>
      match cricKey key rec with
      | none => (acc, some (unsupportedKeyMsg key))
      | some k =>
          match mapLookup acc k with
          | some r => getCricRecordsByKeyAux key (mapInsert acc k { rec with DNs := r.DNs ++ [rec.DN] }) rest
          | none => getCricRecordsByKeyAux key (mapInsert acc k { rec with DNs := rec.DNs ++ [rec.DN] }) rest

/-- getCricRecordsByKey of cric.go: returns the directory built so far and an
error for an unsupported key policy token. -/
def getCricRecordsByKey (entries : List CricEntry) (key : GoStr) : CricRecords × Option GoStr :=
  getCricRecordsByKeyAux key [] entries

/-- GetCricDataByKey of cric.go, with the network fetch of GetCricEntries
modelled by its result (entry list and optional error).  Line 50 of the
source returns a nil error unconditionally after calling getCricRecordsByKey,
discarding the error that call produced. -/
def GetCricDataByKey (fetch : List CricEntry × Option GoStr) (key : GoStr) : CricRecords × Option GoStr :=
  match fetch with
  | (_, some err) => ([], some err)
  | (entries, none) =>
      let res := getCricRecordsByKey entries key
      (res.1, none)

/-- ParseCricByKey of cric.go, with the file system modelled by the stat
result and the decoded entry list (the source ignores the json.Unmarshal
error, so a failed decode is the empty entry list).  Unlike GetCricDataByKey
this function propagates the error of getCricRecordsByKey. -/
def ParseCricByKey (statOk : Bool) (entries : List CricEntry) (key : GoStr) : CricRecords × Option GoStr :=
  if statOk then
    match getCricRecordsByKey entries key with
    | (_, some err) => ([], some err)
    | (cmap, none) => (cmap, none)
  else ([], none)

/-! ### GetSortedDN (cric.go) -/

/-- strings.Split on the slash separator: the list of slash-free segments,
empty segments included; never the empty list. -/
def splitSlash : GoStr → List GoStr
  | [] => [[]]
  | a :: t =>
      if a = 47 then [] :: splitSlash t
      else
        match splitSlash t with
        | h :: r => (a :: h) :: r
        | [] => [[a]]

/-- strings.Join with the slash separator. -/
def joinSlash : List GoStr → GoStr
  | [] => []
  | [x] => x
  | x :: r => x ++ 47 :: joinSlash r

/-- The contains helper of cric.go. -/
def containsStr (list : List GoStr) (value : GoStr) : Bool :=
  list.any (fun v => v == value)

/-- The deduplication loop of GetSortedDN: keep the first occurrence of every
part, in order. -/
def dedupeParts (parts : List GoStr) : List GoStr :=
  parts.foldl (fun acc value => if containsStr acc value then acc else acc ++ [value]) []

/-- GetSortedDN of cric.go: split on slashes, sort the parts, drop duplicate
parts, rejoin with slashes and collapse double slashes. -/
def GetSortedDN (dn : GoStr) : GoStr :=
  let parts := sortStrings (splitSlash dn)
  let dnParts := dedupeParts parts
  replaceAllGo (joinSlash dnParts) (gostr "//") (gostr "/")

/-! ### getCricRecords (cric.go), the sorted-DN keyed directory -/

/-- The entry loop of getCricRecords: the directory key is the sorted DN of
the entry; on a duplicate the stored DN list is extended with the DN of the
later entry; the stored record carries the computed sorted DN. -/
def getCricRecordsAux (acc : CricRecords) : List CricEntry → CricRecords
  | [] => acc
  | rec :: rest =>
      let sortedDN := GetSortedDN rec.DN
      let rec2 :=
        match mapLookup acc sortedDN with
        | some r => { rec with DNs := r.DNs ++ [rec.DN], SortedDN := sortedDN }
        | none => { rec with DNs := rec.DNs ++ [rec.DN], SortedDN := sortedDN }
      getCricRecordsAux (mapInsert acc sortedDN rec2) rest

/-- getCricRecords of cric.go; the error result is always nil. -/
def getCricRecords (entries : List CricEntry) : CricRecords × Option GoStr :=
  (getCricRecordsAux [] entries, none)

/-! ### Pure descriptions of the verification loop, used by the proofs -/

/-- The loop body of checkAuthentication with all header reads taken from a
fixed map m, tracking only (prefix, suffix, hmacValue).  Under the freshness
hypotheses of the theorems below, the loop of the source reads exactly these
values. -/
def pureStep (m : Headers) (st : GoStr × GoStr × GoStr) (kkk : GoStr) : GoStr × GoStr × GoStr :=
  let v0 := (hdrLookupD m kkk).headD []
  let key := goToLower kkk
  ( if selHdr key then st.1 ++ [104] ++ hexNat key.length ++ [118] ++ hexNat v0.length else st.1,
    if selHdr key then st.2.1 ++ key ++ v0 else st.2.1,
    if key == gostr "cms-authn-hmac" then v0 else st.2.2 )

/-- The (prefix, suffix) contribution of one selected header, reading from a
fixed map m. -/
def contribStep (m : Headers) (ps : GoStr × GoStr) (kkk : GoStr) : GoStr × GoStr :=
  let v0 := (hdrLookupD m kkk).headD []
  let key := goToLower kkk
  (ps.1 ++ [104] ++ hexNat key.length ++ [118] ++ hexNat v0.length, ps.2 ++ key ++ v0)

/-! ### Concrete instances used by the witnesses and counterexamples -/

/-- A CMSAuth instance with a configured auth file (keyed mode). -/
def a0 : CMSAuth := { afile := gostr "hmac", hkey := gostr "secret" }

/-- A header set whose trust header carries the canonical MIME casing. -/
def hsGood : Headers :=
  [(gostr "cms-auth-status", [gostr "ok"]), (gostr "Cms-Authn-Login", [gostr "alice"])]

/-- The same header set with the trust header name all lower-case. -/
def hsBad : Headers :=
  [(gostr "cms-auth-status", [gostr "ok"]), (gostr "cms-authn-login", [gostr "alice"])]

/-- A header set in which one header name contains cms-authn- twice, so the
stripped name of one header is the name of another. -/
def hsMut : Headers :=
  [(gostr "cms-auth-status", [gostr "ok"]),
   (gostr "cms-authn-cms-authn-x", [gostr "a"]),
   (gostr "cms-authn-x", [gostr "b"])]

/-- Two header sets that differ only in the letter casing of one header name
(B versus b). -/
def hsCaseB : Headers :=
  [(gostr "cms-auth-status", [gostr "ok"]),
   (gostr "cms-authn-a", [gostr "x"]), (gostr "cms-authn-B", [gostr "y"])]

/-- Lower-case variant of hsCaseB. -/
def hsCaseb : Headers :=
  [(gostr "cms-auth-status", [gostr "ok"]),
   (gostr "cms-authn-a", [gostr "x"]), (gostr "cms-authn-b", [gostr "y"])]

/-- The digest of the canonical string of hsCaseB under the key of a0. -/
def digCaseB : List GoStr := [bytesToHexGo (hmacSha1 (gostr "secret") (canonicalSigningString hsCaseB))]

/-- hsCaseB carrying its own valid signature. -/
def hsCaseBh : Headers := hsCaseB ++ [(gostr "cms-authn-hmac", digCaseB)]

/-- hsCaseb carrying the same signature value: differs from hsCaseBh only in
the casing of one header name. -/
def hsCasebh : Headers := hsCaseb ++ [(gostr "cms-authn-hmac", digCaseB)]

/-- A header set with no cms-auth-status entry at all, carrying a signature
valid for its canonical string (which is just the # separator). -/
def hsNoStatus : Headers :=
  [(gostr "cms-authn-hmac", [bytesToHexGo (hmacSha1 (gostr "secret") (gostr "#"))])]

/-- Single-header maps used as witnesses of casing insensitivity. -/
def mW1 : Headers := [(gostr "Cms-Authn-Login", [gostr "u"])]

/-- Lower-case variant of mW1. -/
def mW2 : Headers := [(gostr "cms-authn-login", [gostr "u"])]

/-- A CRIC entry with login alice and ID 1. -/
def cricA : CricEntry :=
  { DN := gostr "/dn=a", DNs := [], SortedDN := [], ID := 1,
    Login := gostr "alice", Name := gostr "A", Roles := [] }

/-- A second CRIC entry with the same login but ID 2 and another DN. -/
def cricB : CricEntry :=
  { DN := gostr "/dn=b", DNs := [], SortedDN := [], ID := 2,
    Login := gostr "alice", Name := gostr "B", Roles := [] }

/-- The directory after loading cricA alone under the login key. -/
def cricD1 : CricRecords := [(gostr "alice", { cricA with DNs := [gostr "/dn=a"] })]

/-- The record stored for cricA in cricD1. -/
def cricR1 : CricEntry := { cricA with DNs := [gostr "/dn=a"] }

/-- The authorization header set of TestCheckCMSAuthz. -/
def hdrT : Headers :=
  [(gostr "Cms-Authz-Operator", [gostr "group:dbs group:xcache"]),
   (gostr "Cms-Authz-Dbsexpert", [gostr "group:dbs"]),
   (gostr "Cms-Authz-Developer", [gostr "group:reqmgr2"]),
   (gostr "Cms-Authz-Admin", [gostr "group:reqmgr group:das"]),
   (gostr "Cms-Authz-Users", [gostr "group:users"])]

/-! ## Lemmas -/

theorem leadsWith_iff (pat : GoStr) : ∀ s : GoStr, leadsWith pat s = true ↔ pat <+: s := by
  induction pat with
  | nil => intro s; simp [leadsWith, List.nil_prefix]
  | cons a pa ih =>
      intro s
      cases s with
      | nil => simp [leadsWith, List.prefix_nil]
      | cons b sb =>
          rw [List.cons_prefix_cons, leadsWith, Bool.and_eq_true, beq_iff_eq, ih sb]

theorem goContains_iff (s pat : GoStr) : goContains s pat = true ↔ pat <:+: s := by
  unfold goContains
  induction s with
  | nil => simp [goContainsAux, leadsWith_iff, List.prefix_nil, List.infix_nil]
  | cons b t ih => simp [goContainsAux, leadsWith_iff, List.infix_cons_iff, ih]

theorem goContains_empty_pat (s : GoStr) : goContains s [] = true := by
  cases s <;> simp [goContains, goContainsAux, leadsWith]

theorem checkCMSAuthz_iff (hs : Headers) (role group site : GoStr) :
    CheckCMSAuthz hs role group site = true ↔
      ∃ kv ∈ hs, (gostr "cms-authz") <+: goToLower kv.1 ∧
        goToLower role <:+: goToLower kv.1 ∧
        ∃ v ∈ kv.2, (goToLower group <:+: goToLower v ∨ goToLower site <:+: goToLower v) := by
  simp [CheckCMSAuthz, List.any_eq_true, goHasPre, leadsWith_iff, goContains_iff, and_assoc]

/-! ## Claim theorems -/

/-- Claim C6: CheckCMSAuthz(headers, role, group, site) returns true exactly
when some header whose lower-cased name starts with cms-authz and contains
the lower-cased role as a substring has a value that, case-insensitively,
contains the group or the site as a substring; with no cms-authz header the
result is false for every role, group and site; and an empty site argument is
contained in every value. -/
theorem checkCMSAuthz_spec (hs : Headers) (role group site : GoStr) :
    (CheckCMSAuthz hs role group site = true ↔
      ∃ kv ∈ hs, (gostr "cms-authz") <+: goToLower kv.1 ∧
        goToLower role <:+: goToLower kv.1 ∧
        ∃ v ∈ kv.2, (goToLower group <:+: goToLower v ∨ goToLower site <:+: goToLower v)) ∧
    ((∀ kv ∈ hs, ¬ (gostr "cms-authz") <+: goToLower kv.1) →
      CheckCMSAuthz hs role group site = false) ∧
    (site = [] → ∀ v : GoStr, goContains (goToLower v) (goToLower site) = true) := by
  refine ⟨checkCMSAuthz_iff hs role group site, ?_, ?_⟩
  · intro hnone
    cases hb : CheckCMSAuthz hs role group site with
    | false => rfl
    | true =>
        obtain ⟨kv, hkv, hpre, _⟩ := (checkCMSAuthz_iff hs role group site).mp hb
        exact absurd hpre (hnone kv hkv)
  · intro hsite v
    subst hsite
    simpa [goToLower] using goContains_empty_pat (goToLower v)

/-- Witness for C6: the test data of TestCheckCMSAuthz; the empty header set
is rejected, and the empty site is contained in a concrete value. -/
theorem checkCMSAuthz_spec_witness :
    CheckCMSAuthz [] (gostr "operator") (gostr "xcache") (gostr "T1") = false ∧
    goContains (goToLower (gostr "group:dbs")) (goToLower []) = true :=
  ⟨(checkCMSAuthz_spec [] (gostr "operator") (gostr "xcache") (gostr "T1")).2.1 (by simp),
   (checkCMSAuthz_spec [] (gostr "operator") (gostr "xcache") []).2.2 rfl (gostr "group:dbs")⟩

/-- Claim C8: GetSortedDN maps the DN of TestGetSortedDN to its sorted form. -/
theorem getSortedDN_test_vector :
    GetSortedDN (gostr "/DC=ch/DC=cern/OU=Organic Units/OU=Users/CN=user/CN=123/CN=First Last") =
      gostr "/CN=123/CN=First Last/CN=user/DC=cern/DC=ch/OU=Organic Units/OU=Users" := by
  decide

/-- Claim C5: GetCricDataByKey called with the unrecognized key policy
email on one entry returns the empty directory with a nil error, although
getCricRecordsByKey reports the unsupported-key error: line 50 of cric.go
discards that error. -/
theorem getCricDataByKey_swallows_unsupported_key :
    GetCricDataByKey ([cricA], none) (gostr "email") = ([], none) ∧
    getCricRecordsByKey [cricA] (gostr "email") = ([], some (unsupportedKeyMsg (gostr "email"))) := by
  decide

/-- Claim C10: on an empty entry sequence every key policy token, supported
or not, yields the empty directory and a nil error, from getCricRecordsByKey
and from ParseCricByKey; the token is validated per entry, so with at least
one entry an unsupported token raises the error. -/
theorem cricByKey_validates_per_entry (key : GoStr) :
    getCricRecordsByKey [] key = ([], none) ∧
    ParseCricByKey true [] key = ([], none) ∧
    (∀ e es, cricKey key e = none →
      getCricRecordsByKey (e :: es) key = ([], some (unsupportedKeyMsg key))) := by
  refine ⟨rfl, rfl, fun e es h => ?_⟩
  simp [getCricRecordsByKey, getCricRecordsByKeyAux, h]

/-- Witness for C10: the token email is unsupported and raises the error as
soon as one entry is present. -/
theorem cricByKey_validates_per_entry_witness :
    getCricRecordsByKey (cricA :: []) (gostr "email") = ([], some (unsupportedKeyMsg (gostr "email"))) :=
  (cricByKey_validates_per_entry (gostr "email")).2.2 cricA [] (by decide)

theorem mapKeys_cons {α : Type} (kv : GoStr × α) (d : List (GoStr × α)) :
    mapKeys (kv :: d) = kv.1 :: mapKeys d := rfl

theorem mapKeys_append {α : Type} (d1 d2 : List (GoStr × α)) : mapKeys (d1 ++ d2) = mapKeys d1 ++ mapKeys d2 := by
  simp [mapKeys]

theorem mapLookup_cons {α : Type} (kv : GoStr × α) (d : List (GoStr × α)) (k : GoStr) :
    mapLookup (kv :: d) k = if kv.1 = k then some kv.2 else mapLookup d k := by
  by_cases h : kv.1 = k
  · have hb : (kv.1 == k) = true := beq_iff_eq.mpr h
    simp [mapLookup, List.find?, hb, h]
  · have hb : (kv.1 == k) = false := beq_eq_false_iff_ne.mpr h
    simp [mapLookup, List.find?, hb, h]

theorem mapLookup_eq_none {α : Type} {d : List (GoStr × α)} {k : GoStr} : mapLookup d k = none ↔ k ∉ mapKeys d := by
  induction d with
  | nil => simp [mapLookup, mapKeys]
  | cons kv rest ih =>
      rw [mapLookup_cons, mapKeys_cons]
      by_cases h : kv.1 = k
      · simp [h]
      · have hne : k ≠ kv.1 := fun hx => h hx.symm
        rw [if_neg h, ih]
        simp [List.mem_cons, hne]

theorem mapLookup_mem_of_some {α : Type} {d : List (GoStr × α)} {k : GoStr} {v : α}
    (h : mapLookup d k = some v) : k ∈ mapKeys d := by
  by_contra hk
  rw [mapLookup_eq_none.mpr hk] at h
  cases h

theorem mapInsert_of_mem {α : Type} {d : List (GoStr × α)} {k : GoStr} {v : α} (h : k ∈ mapKeys d) :
    mapInsert d k v = d.map (fun kv => if kv.1 = k then (k, v) else kv) := by
  simp [mapInsert, h]

theorem mapInsert_of_not_mem {α : Type} {d : List (GoStr × α)} {k : GoStr} {v : α} (h : k ∉ mapKeys d) :
    mapInsert d k v = d ++ [(k, v)] := by
  simp [mapInsert, h]

theorem mapKeys_mapReplace {α : Type} (d : List (GoStr × α)) (k : GoStr) (v : α) :
    mapKeys (d.map (fun kv => if kv.1 = k then (k, v) else kv)) = mapKeys d := by
  induction d with
  | nil => rfl
  | cons kv rest ih => by_cases hh : kv.1 = k <;> simp [mapKeys_cons, hh, ih]

theorem mapKeys_mapInsert_mem {α : Type} {d : List (GoStr × α)} {k : GoStr} {v : α} (h : k ∈ mapKeys d) :
    mapKeys (mapInsert d k v) = mapKeys d := by
  rw [mapInsert_of_mem h, mapKeys_mapReplace]

theorem mapKeys_mapInsert_not_mem {α : Type} {d : List (GoStr × α)} {k : GoStr} {v : α} (h : k ∉ mapKeys d) :
    mapKeys (mapInsert d k v) = mapKeys d ++ [k] := by
  rw [mapInsert_of_not_mem h, mapKeys_append]
  rfl

theorem mapLookup_mapReplace_of_mem {α : Type} {d : List (GoStr × α)} {k : GoStr} (v : α)
    (h : k ∈ mapKeys d) :
    mapLookup (d.map (fun kv => if kv.1 = k then (k, v) else kv)) k = some v := by
  induction d with
  | nil => simp [mapKeys] at h
  | cons kv rest ih =>
      by_cases hh : kv.1 = k
      · simp only [List.map_cons, hh, if_pos rfl]
        rw [mapLookup_cons]
        simp
      · rw [mapKeys_cons] at h
        simp only [List.map_cons, if_neg hh]
        rw [mapLookup_cons, if_neg hh]
        exact ih ((List.mem_cons.mp h).resolve_left (fun hx => hh hx.symm))

theorem mapLookup_mapInsert_self {α : Type} (d : List (GoStr × α)) (k : GoStr) (v : α) :
    mapLookup (mapInsert d k v) k = some v := by
  by_cases h : k ∈ mapKeys d
  · rw [mapInsert_of_mem h]
    exact mapLookup_mapReplace_of_mem v h
  · rw [mapInsert_of_not_mem h]
    unfold mapLookup
    rw [List.find?_append]
    have hnone : List.find? (fun kv => kv.1 == k) d = none := by
      have := mapLookup_eq_none.mpr h
      unfold mapLookup at this
      cases hf : List.find? (fun kv => kv.1 == k) d with
      | none => rfl
      | some x => rw [hf] at this; cases this
    rw [hnone]
    simp [List.find?]

theorem mapLookup_mapReplace_ne {α : Type} (k : GoStr) (v : α) (k' : GoStr) (h : k' ≠ k) :
    ∀ d : List (GoStr × α),
      mapLookup (d.map (fun kv => if kv.1 = k then (k, v) else kv)) k' = mapLookup d k' := by
  intro d
  induction d with
  | nil => rfl
  | cons kv rest ih =>
      rw [List.map_cons, mapLookup_cons, mapLookup_cons]
      by_cases hh : kv.1 = k
      · rw [if_pos hh]
        rw [if_neg (show ¬ (k, v).1 = k' from fun hx => h hx.symm)]
        rw [if_neg (show ¬ kv.1 = k' from by rw [hh]; exact fun hx => h hx.symm)]
        exact ih
      · rw [if_neg hh]
        by_cases hk' : kv.1 = k'
        · rw [if_pos hk', if_pos hk']
        · rw [if_neg hk', if_neg hk']
          exact ih

theorem mapLookup_mapInsert_ne {α : Type} (d : List (GoStr × α)) (k : GoStr) (v : α) (k' : GoStr)
    (h : k' ≠ k) : mapLookup (mapInsert d k v) k' = mapLookup d k' := by
  by_cases hm : k ∈ mapKeys d
  · rw [mapInsert_of_mem hm]
    exact mapLookup_mapReplace_ne k v k' h d
  · rw [mapInsert_of_not_mem hm]
    unfold mapLookup
    rw [List.find?_append]
    have hb : (k == k') = false := beq_eq_false_iff_ne.mpr (fun hx => h hx.symm)
    have hlast : List.find? (fun kv => kv.1 == k') [(k, v)] = none := by
      simp [List.find?, hb]
    rw [hlast]
    cases hf : List.find? (fun kv => kv.1 == k') d <;> simp [hf]

theorem cricAux_cons_unsupported {key : GoStr} {rec : CricEntry} (acc : CricRecords)
    (rest : List CricEntry) (h : cricKey key rec = none) :
    getCricRecordsByKeyAux key acc (rec :: rest) = (acc, some (unsupportedKeyMsg key)) := by
  conv_lhs => rw [getCricRecordsByKeyAux.eq_def]
  simp only [h]

theorem cricAux_cons_dup {key k : GoStr} {rec r : CricEntry} (acc : CricRecords)
    (rest : List CricEntry) (hk : cricKey key rec = some k) (hl : mapLookup acc k = some r) :
    getCricRecordsByKeyAux key acc (rec :: rest) =
      getCricRecordsByKeyAux key (mapInsert acc k { rec with DNs := r.DNs ++ [rec.DN] }) rest := by
  conv_lhs => rw [getCricRecordsByKeyAux.eq_def]
  simp only [hk, hl]

theorem cricAux_cons_new {key k : GoStr} {rec : CricEntry} (acc : CricRecords)
    (rest : List CricEntry) (hk : cricKey key rec = some k) (hl : mapLookup acc k = none) :
    getCricRecordsByKeyAux key acc (rec :: rest) =
      getCricRecordsByKeyAux key (mapInsert acc k { rec with DNs := rec.DNs ++ [rec.DN] }) rest := by
  conv_lhs => rw [getCricRecordsByKeyAux.eq_def]
  simp only [hk, hl]

theorem cricAux_nodup (key : GoStr) : ∀ (es : List CricEntry) (acc : CricRecords),
    (mapKeys acc).Nodup → (mapKeys (getCricRecordsByKeyAux key acc es).1).Nodup := by
  intro es
  induction es with
  | nil => intro acc h; exact h
  | cons rec rest ih =>
      intro acc h
      cases hk : cricKey key rec with
      | none => rw [cricAux_cons_unsupported acc rest hk]; exact h
      | some k =>
          cases hl : mapLookup acc k with
          | some r =>
              rw [cricAux_cons_dup acc rest hk hl]
              exact ih _ (by rw [mapKeys_mapInsert_mem (mapLookup_mem_of_some hl)]; exact h)
          | none =>
              rw [cricAux_cons_new acc rest hk hl]
              refine ih _ ?_
              rw [mapKeys_mapInsert_not_mem (mapLookup_eq_none.mp hl)]
              simp [List.nodup_append, h, mapLookup_eq_none.mp hl]

theorem cricAux_append (key : GoStr) (e : CricEntry) : ∀ (es : List CricEntry)
    (acc d : CricRecords), getCricRecordsByKeyAux key acc es = (d, none) →
    getCricRecordsByKeyAux key acc (es ++ [e]) = getCricRecordsByKeyAux key d [e] := by
  intro es
  induction es with
  | nil =>
      intro acc d h
      have : acc = d := congrArg Prod.fst h
      rw [List.nil_append, this]
  | cons rec rest ih =>
      intro acc d h
      cases hk : cricKey key rec with
      | none =>
          rw [cricAux_cons_unsupported acc rest hk] at h
          exact absurd (congrArg Prod.snd h) (by simp)
      | some k =>
          cases hl : mapLookup acc k with
          | some r =>
              rw [cricAux_cons_dup acc rest hk hl] at h
              rw [List.cons_append, cricAux_cons_dup acc (rest ++ [e]) hk hl]
              exact ih _ _ h
          | none =>
              rw [cricAux_cons_new acc rest hk hl] at h
              rw [List.cons_append, cricAux_cons_new acc (rest ++ [e]) hk hl]
              exact ih _ _ h

/-- Claim C4 (amended): when an entry resolves to a directory key that is
already present, the directory afterwards holds exactly one record under that
key; its non-DN scalar fields are those of the later entry (the source stores
the later entry itself, last-write-wins), and its DN list is the previously
stored list extended with the DN of the later entry. -/
theorem getCricRecordsByKey_duplicate_merge (es : List CricEntry) (e : CricEntry)
    (key k : GoStr) (d : CricRecords) (r : CricEntry)
    (hd : getCricRecordsByKey es key = (d, none))
    (hk : cricKey key e = some k)
    (hr : mapLookup d k = some r) :
    getCricRecordsByKey (es ++ [e]) key =
      (mapInsert d k { e with DNs := r.DNs ++ [e.DN] }, none) ∧
    mapLookup (mapInsert d k { e with DNs := r.DNs ++ [e.DN] }) k =
      some { e with DNs := r.DNs ++ [e.DN] } ∧
    mapKeys (mapInsert d k { e with DNs := r.DNs ++ [e.DN] }) = mapKeys d ∧
    (mapKeys (mapInsert d k { e with DNs := r.DNs ++ [e.DN] })).Nodup := by
  have hkeys : mapKeys (mapInsert d k { e with DNs := r.DNs ++ [e.DN] }) = mapKeys d :=
    mapKeys_mapInsert_mem (mapLookup_mem_of_some hr)
  refine ⟨?_, mapLookup_mapInsert_self d k _, hkeys, ?_⟩
  · unfold getCricRecordsByKey at hd ⊢
    rw [cricAux_append key e es [] d hd, cricAux_cons_dup d [] hk hr]
    rfl
  · rw [hkeys]
    have hd2 : getCricRecordsByKeyAux key [] es = (d, none) := hd
    have := cricAux_nodup key es [] (by simp [mapKeys])
    rw [hd2] at this
    exact this

/-- Witness for C4: loading cricB after cricA under the login key merges into
the record of cricB with the accumulated DN list. -/
theorem getCricRecordsByKey_duplicate_merge_witness :
    getCricRecordsByKey ([cricA] ++ [cricB]) (gostr "login") =
      (mapInsert cricD1 (gostr "alice") { cricB with DNs := cricR1.DNs ++ [cricB.DN] }, none) ∧
    mapLookup (mapInsert cricD1 (gostr "alice") { cricB with DNs := cricR1.DNs ++ [cricB.DN] })
        (gostr "alice") = some { cricB with DNs := cricR1.DNs ++ [cricB.DN] } ∧
    mapKeys (mapInsert cricD1 (gostr "alice") { cricB with DNs := cricR1.DNs ++ [cricB.DN] }) =
      mapKeys cricD1 ∧
    (mapKeys (mapInsert cricD1 (gostr "alice") { cricB with DNs := cricR1.DNs ++ [cricB.DN] })).Nodup :=
  getCricRecordsByKey_duplicate_merge [cricA] cricB (gostr "login") (gostr "alice") cricD1 cricR1
    (by decide) (by decide) (by decide)

/-- Counterexample for C4: two entries with the same login but different IDs;
the stored record carries the ID, name and roles of the second (later) entry,
not of the first-seen one as the claim states. -/
theorem getCricRecordsByKey_not_first_write :
    (getCricRecordsByKey [cricA, cricB] (gostr "login")).1 =
      [(gostr "alice", { cricB with DNs := [gostr "/dn=a", gostr "/dn=b"] })] ∧
    cricA.Login = cricB.Login ∧ cricA.ID = 1 ∧ cricB.ID = 2 ∧
    ({ cricB with DNs := [gostr "/dn=a", gostr "/dn=b"] }).ID = 2 := by
  decide

theorem mapLookup_of_nodup_mem {α : Type} {d : List (GoStr × α)} {kv : GoStr × α}
    (hn : (mapKeys d).Nodup) (hm : kv ∈ d) : mapLookup d kv.1 = some kv.2 := by
  induction d with
  | nil => cases hm
  | cons kv' rest ih =>
      rw [mapKeys_cons] at hn
      rw [mapLookup_cons]
      cases List.mem_cons.mp hm with
      | inl h =>
          subst h
          rw [if_pos rfl]
      | inr h =>
          have hne : kv'.1 ≠ kv.1 := by
            intro hx
            exact (List.nodup_cons.mp hn).1 (hx ▸ List.mem_map_of_mem (fun p => p.1) h)
          rw [if_neg hne]
          exact ih (List.nodup_cons.mp hn).2 h

theorem hdrLookupD_mapInsert_ne (hs : Headers) (k : GoStr) (v : List GoStr) (k' : GoStr)
    (h : k' ≠ k) : hdrLookupD (mapInsert hs k v) k' = hdrLookupD hs k' := by
  unfold hdrLookupD
  rw [mapLookup_mapInsert_ne hs k v k' h]

theorem hdrLookupD_mapInsert_self (hs : Headers) (k : GoStr) (v : List GoStr) :
    hdrLookupD (mapInsert hs k v) k = v := by
  unfold hdrLookupD
  rw [mapLookup_mapInsert_self]
  rfl

theorem sortStrings_sorted (l : List GoStr) : List.Sorted (· ≤ ·) (sortStrings l) :=
  List.sorted_insertionSort _ l

theorem sortStrings_perm (l : List GoStr) : (sortStrings l).Perm l :=
  List.perm_insertionSort _ l

theorem sortStrings_mem {l : List GoStr} {x : GoStr} : x ∈ sortStrings l ↔ x ∈ l :=
  List.mem_insertionSort _

theorem sortStrings_nodup {l : List GoStr} (h : l.Nodup) : (sortStrings l).Nodup :=
  h.perm (sortStrings_perm l).symm

theorem sortStrings_filter (p : GoStr → Bool) (l : List GoStr) :
    (sortStrings l).filter p = sortStrings (l.filter p) :=
  List.eq_of_perm_of_sorted
    (((sortStrings_perm l).filter p).trans (sortStrings_perm (l.filter p)).symm)
    ((sortStrings_sorted l).filter p)
    (sortStrings_sorted (l.filter p))

/-- Master lemma: as long as every name about to be processed is a key of the
original map and the names written by the stripping side effect are fresh,
the loop of checkAuthentication reads the same values as a pure fold over the
original map. -/
theorem foldl_checkAuthStep_pure (m : Headers) :
    ∀ (L : List GoStr) (cur : Headers) (p s h : GoStr),
      (∀ k ∈ L, k ∈ mapKeys m) →
      (∀ k ∈ mapKeys m, hdrLookupD cur k = hdrLookupD m k) →
      (∀ k ∈ mapKeys m, selAuthn (goToLower k) = true → stripName k ∉ mapKeys m) →
      (L.foldl checkAuthStep (p, s, h, cur)).1 = (L.foldl (pureStep m) (p, s, h)).1 ∧
      (L.foldl checkAuthStep (p, s, h, cur)).2.1 = (L.foldl (pureStep m) (p, s, h)).2.1 ∧
      (L.foldl checkAuthStep (p, s, h, cur)).2.2.1 = (L.foldl (pureStep m) (p, s, h)).2.2 := by
  intro L
  induction L with
  | nil => exact fun cur p s h _ _ _ => ⟨rfl, rfl, rfl⟩
  | cons kkk L2 ih =>
      intro cur p s h hsub hagree hfresh
      have hk : kkk ∈ mapKeys m := hsub kkk (List.mem_cons_self kkk L2)
      have hval : hdrLookupD cur kkk = hdrLookupD m kkk := hagree kkk hk
      have hstep : checkAuthStep (p, s, h, cur) kkk =
          ((pureStep m (p, s, h) kkk).1, (pureStep m (p, s, h) kkk).2.1,
            (pureStep m (p, s, h) kkk).2.2,
            if selAuthn (goToLower kkk) then mapInsert cur (stripName kkk) (hdrLookupD m kkk)
            else cur) := by
        simp only [checkAuthStep, pureStep, hval]
      have hagree2 : ∀ k ∈ mapKeys m,
          hdrLookupD (if selAuthn (goToLower kkk) then mapInsert cur (stripName kkk) (hdrLookupD m kkk) else cur) k =
            hdrLookupD m k := by
        intro k hkm
        by_cases hsel : selAuthn (goToLower kkk) = true
        · rw [if_pos hsel]
          have hfr : stripName kkk ∉ mapKeys m := hfresh kkk hk hsel
          have hne : k ≠ stripName kkk := fun hx => hfr (hx ▸ hkm)
          rw [hdrLookupD_mapInsert_ne cur (stripName kkk) _ k hne]
          exact hagree k hkm
        · rw [if_neg hsel]
          exact hagree k hkm
      have hsub2 : ∀ k ∈ L2, k ∈ mapKeys m := fun k hkk => hsub k (List.mem_cons_of_mem kkk hkk)
      simp only [List.foldl_cons]
      rw [hstep]
      exact ih _ (pureStep m (p, s, h) kkk).1 (pureStep m (p, s, h) kkk).2.1
        (pureStep m (p, s, h) kkk).2.2 hsub2 hagree2 hfresh

theorem foldl_checkAuthStep_hv_unchanged :
    ∀ (L : List GoStr) (st : GoStr × GoStr × GoStr × Headers),
      (∀ k ∈ L, ¬ goToLower k = gostr "cms-authn-hmac") →
      (L.foldl checkAuthStep st).2.2.1 = st.2.2.1 := by
  intro L
  induction L with
  | nil => exact fun st _ => rfl
  | cons kkk L2 ih =>
      intro st h
      have hb : (goToLower kkk == gostr "cms-authn-hmac") = false :=
        beq_eq_false_iff_ne.mpr (h kkk (List.mem_cons_self kkk L2))
      simp only [List.foldl_cons]
      rw [ih _ (fun k hk => h k (List.mem_cons_of_mem kkk hk))]
      simp [checkAuthStep, hb]

theorem pureStep_fold_hv_unchanged (m : Headers) :
    ∀ (L : List GoStr) (st : GoStr × GoStr × GoStr),
      (∀ k ∈ L, ¬ goToLower k = gostr "cms-authn-hmac") →
      (L.foldl (pureStep m) st).2.2 = st.2.2 := by
  intro L
  induction L with
  | nil => exact fun st _ => rfl
  | cons kkk L2 ih =>
      intro st h
      have hb : (goToLower kkk == gostr "cms-authn-hmac") = false :=
        beq_eq_false_iff_ne.mpr (h kkk (List.mem_cons_self kkk L2))
      simp only [List.foldl_cons]
      rw [ih _ (fun k hk => h k (List.mem_cons_of_mem kkk hk))]
      simp [pureStep, hb]

theorem pureStep_fold_hv (m : Headers) :
    ∀ (L : List GoStr) (st : GoStr × GoStr × GoStr),
      (∀ k ∈ L, goToLower k = gostr "cms-authn-hmac" → k = gostr "cms-authn-hmac") →
      gostr "cms-authn-hmac" ∈ L →
      (L.foldl (pureStep m) st).2.2 = (hdrLookupD m (gostr "cms-authn-hmac")).headD [] := by
  intro L
  induction L with
  | nil => exact fun st _ hmem => absurd hmem (List.not_mem_nil _)
  | cons kkk L2 ih =>
      intro st hOnly hmem
      by_cases hmem2 : gostr "cms-authn-hmac" ∈ L2
      · simp only [List.foldl_cons]
        exact ih _ (fun k hk => hOnly k (List.mem_cons_of_mem kkk hk)) hmem2
      · have hkkk : kkk = gostr "cms-authn-hmac" := by
          cases List.mem_cons.mp hmem with
          | inl h => exact h.symm
          | inr h => exact absurd h hmem2
        subst hkkk
        simp only [List.foldl_cons]
        rw [pureStep_fold_hv_unchanged m L2 _
          (fun k hk hlow => hmem2 ((hOnly k (List.mem_cons_of_mem _ hk) hlow) ▸ hk))]
        have hlow : goToLower (gostr "cms-authn-hmac") = gostr "cms-authn-hmac" := by decide
        simp only [pureStep, hlow, beq_self_eq_true, if_pos]

theorem bytesToHexGo_cons (b : Nat) (l : List Nat) :
    bytesToHexGo (b :: l) = hexDigitB (b / 16) :: hexDigitB (b % 16) :: bytesToHexGo l := rfl

theorem bytesToHexGo_length (l : List Nat) : (bytesToHexGo l).length = 2 * l.length := by
  induction l with
  | nil => rfl
  | cons b t ih => rw [bytesToHexGo_cons]; simp [ih]; omega

theorem sha1Bytes_length (msg : List Nat) : (sha1Bytes msg).length = 20 := by
  simp [sha1Bytes, wordBytes]

theorem hmacSha1_length (key msg : List Nat) : (hmacSha1 key msg).length = 20 := by
  simp [hmacSha1, sha1Bytes_length]

theorem beq_nil_eq_false {x : GoStr} (h : x ≠ []) : (x == ([] : GoStr)) = false := by
  cases x with
  | nil => exact absurd rfl h
  | cons a t => rfl

/-- Claim C2 (amended): checkAuthentication looks the status header up under
the exact lower-case name cms-auth-status; when that entry holds the single
value NONE it returns true unconditionally; when the entry is absent, the nil
comparison of the source never fires (typed nil inside an interface), the
loop runs, and the result is false whenever no header name lowers to
cms-authn-hmac, because an empty stored digest cannot equal the computed
40-digit digest. -/
theorem checkAuthentication_status :
    (∀ (a : CMSAuth) (hs : Headers),
      hdrLookupD hs (gostr "cms-auth-status") = [gostr "NONE"] →
      (checkAuthentication a hs).1 = true) ∧
    (∀ (a : CMSAuth) (hs : Headers),
      mapLookup hs (gostr "cms-auth-status") = none →
      (∀ kv ∈ hs, ¬ goToLower kv.1 = gostr "cms-authn-hmac") →
      (checkAuthentication a hs).1 = false) := by
  constructor
  · intro a hs h
    simp [checkAuthentication, h]
  · intro a hs h hnm
    have hvalues : hdrLookupD hs (gostr "cms-auth-status") = [] := by
      unfold hdrLookupD
      rw [h]
      rfl
    have hne : (([] : List GoStr) == [gostr "NONE"]) = false := rfl
    unfold checkAuthentication
    rw [hvalues]
    simp only [hne, Bool.false_eq_true, if_false]
    have hv0 : (checkAuthLoop hs).2.2.1 = [] := by
      unfold checkAuthLoop
      refine foldl_checkAuthStep_hv_unchanged _ _ ?_
      intro k hk
      obtain ⟨kv, hkv, rfl⟩ := List.mem_map.mp (sortStrings_mem.mp hk)
      exact hnm kv hkv
    rw [hv0]
    refine beq_nil_eq_false ?_
    intro hx
    have hlen := congrArg List.length hx
    rw [bytesToHexGo_length] at hlen
    by_cases hc : (a.afile.length != 0) = true <;> simp [hc, hmacSha1_length, sha1Bytes_length] at hlen

/-- Witness for C2 (amended): a header map whose status entry is NONE is
accepted; the empty header map is rejected. -/
theorem checkAuthentication_status_witness :
    (checkAuthentication a0 [(gostr "cms-auth-status", [gostr "NONE"])]).1 = true ∧
    (checkAuthentication a0 []).1 = false :=
  ⟨checkAuthentication_status.1 a0 [(gostr "cms-auth-status", [gostr "NONE"])] (by decide),
   checkAuthentication_status.2 a0 [] (by decide) (by simp)⟩

/-- Counterexample for C2: a header map with no cms-auth-status entry at all
on which checkAuthentication returns true, because the absent-status branch
of the source is dead code (typed nil in an interface) and the stored digest
matches the canonical string, which is just the # separator. -/
theorem checkAuthentication_no_status_true :
    mapLookup hsNoStatus (gostr "cms-auth-status") = none ∧
    (checkAuthentication a0 hsNoStatus).1 = true := by
  constructor
  · decide
  · rfl

theorem pureStep_fold_congr (m1 m2 : Headers) :
    ∀ {L1 L2 : List GoStr},
      List.Forall₂ (fun k1 k2 => goToLower k1 = goToLower k2 ∧ hdrLookupD m1 k1 = hdrLookupD m2 k2) L1 L2 →
      ∀ st, L1.foldl (pureStep m1) st = L2.foldl (pureStep m2) st := by
  intro L1 L2 hF
  induction hF with
  | nil => exact fun st => rfl
  | @cons a b l1 l2 hR hF2 ih =>
      intro st
      simp only [List.foldl_cons]
      have hstep : pureStep m1 st a = pureStep m2 st b := by
        simp only [pureStep, hR.1, hR.2]
      rw [hstep]
      exact ih _

/-- Claim C1 (amended): the header names are sorted by their original
(case-sensitive) byte order and lower-cased afterwards, so the canonical
signing string, and the outcome of checkAuthentication, agree between two
header maps exactly when their case-sensitively sorted name lists correspond
pointwise with equal lower-cased names and equal value lists (and the status
entries agree); a casing change that reorders the case-sensitive sort can
change the canonical string. -/
theorem checkAuthentication_canonical_casing (m1 m2 : Headers)
    (hfresh1 : ∀ k ∈ mapKeys m1, selAuthn (goToLower k) = true → stripName k ∉ mapKeys m1)
    (hfresh2 : ∀ k ∈ mapKeys m2, selAuthn (goToLower k) = true → stripName k ∉ mapKeys m2)
    (hstat : hdrLookupD m1 (gostr "cms-auth-status") = hdrLookupD m2 (gostr "cms-auth-status"))
    (hF : List.Forall₂
      (fun k1 k2 => goToLower k1 = goToLower k2 ∧ hdrLookupD m1 k1 = hdrLookupD m2 k2)
      (sortStrings (mapKeys m1)) (sortStrings (mapKeys m2))) :
    canonicalSigningString m1 = canonicalSigningString m2 ∧
    ∀ a : CMSAuth, (checkAuthentication a m1).1 = (checkAuthentication a m2).1 := by
  have e1 := foldl_checkAuthStep_pure m1 (sortStrings (mapKeys m1)) m1 [] [] []
    (fun k hk => sortStrings_mem.mp hk) (fun k _ => rfl) hfresh1
  have e2 := foldl_checkAuthStep_pure m2 (sortStrings (mapKeys m2)) m2 [] [] []
    (fun k hk => sortStrings_mem.mp hk) (fun k _ => rfl) hfresh2
  have hpure : (sortStrings (mapKeys m1)).foldl (pureStep m1) ([], [], []) =
      (sortStrings (mapKeys m2)).foldl (pureStep m2) ([], [], []) :=
    pureStep_fold_congr m1 m2 hF _
  have h11 : (checkAuthLoop m1).1 = (checkAuthLoop m2).1 := by
    unfold checkAuthLoop
    rw [e1.1, e2.1, hpure]
  have h12 : (checkAuthLoop m1).2.1 = (checkAuthLoop m2).2.1 := by
    unfold checkAuthLoop
    rw [e1.2.1, e2.2.1, hpure]
  have h13 : (checkAuthLoop m1).2.2.1 = (checkAuthLoop m2).2.2.1 := by
    unfold checkAuthLoop
    rw [e1.2.2, e2.2.2, hpure]
  constructor
  · simp only [canonicalSigningString]
    rw [h11, h12]
  · intro a
    simp only [checkAuthentication]
    rw [hstat]
    cases hb : (hdrLookupD m2 (gostr "cms-auth-status") == [gostr "NONE"]) with
    | true => simp [hb]
    | false =>
        simp only [hb, Bool.false_eq_true, if_false]
        rw [h11, h12, h13]

/-- Witness for C1 (amended): the same single trust header under canonical
and under lower-case naming yields the same canonical string and outcome. -/
theorem checkAuthentication_canonical_casing_witness :
    canonicalSigningString mW1 = canonicalSigningString mW2 ∧
    (checkAuthentication a0 mW1).1 = (checkAuthentication a0 mW2).1 :=
  ⟨(checkAuthentication_canonical_casing mW1 mW2 (by decide) (by decide) (by decide)
      (List.Forall₂.cons ⟨by decide, by decide⟩ List.Forall₂.nil)).1,
   (checkAuthentication_canonical_casing mW1 mW2 (by decide) (by decide) (by decide)
      (List.Forall₂.cons ⟨by decide, by decide⟩ List.Forall₂.nil)).2 a0⟩

/-- Counterexample for C1: hsCaseBh and hsCasebh differ only in the letter
casing of one header name (cms-authn-B versus cms-authn-b) and carry
identical values, yet the canonical signing strings differ, and the carried
signature verifies for one map and not for the other. -/
theorem checkAuthentication_canonical_casing_cex :
    canonicalSigningString hsCaseBh ≠ canonicalSigningString hsCasebh ∧
    (checkAuthentication a0 hsCaseBh).1 = true ∧
    (checkAuthentication a0 hsCasebh).1 = false := by
  refine ⟨by decide, ?_, ?_⟩ <;> rfl

theorem foldl_checkAuthStep_stores (m : Headers) (hmn : (mapKeys m).Nodup)
    (hfresh : ∀ k ∈ mapKeys m, selAuthn (goToLower k) = true → stripName k ∉ mapKeys m)
    (hinj : ∀ k1 ∈ mapKeys m, ∀ k2 ∈ mapKeys m, selAuthn (goToLower k1) = true →
      selAuthn (goToLower k2) = true → stripName k1 = stripName k2 → k1 = k2) :
    ∀ (L : List GoStr) (st : GoStr × GoStr × GoStr × Headers),
      L.Nodup → (∀ k ∈ L, k ∈ mapKeys m) →
      (∀ k ∈ mapKeys m, hdrLookupD st.2.2.2 k = hdrLookupD m k) →
      (∀ kv ∈ m, selAuthn (goToLower kv.1) = true → kv.1 ∉ L →
        hdrLookupD st.2.2.2 (stripName kv.1) = kv.2) →
      ∀ kv ∈ m, selAuthn (goToLower kv.1) = true →
        hdrLookupD (L.foldl checkAuthStep st).2.2.2 (stripName kv.1) = kv.2 := by
  intro L
  induction L with
  | nil =>
      intro st _ _ _ htr kv hkv hsel
      exact htr kv hkv hsel (List.not_mem_nil _)
  | cons kkk L2 ih =>
      intro st hnd hsub hag htr kv hkv hsel
      have hkm : kkk ∈ mapKeys m := hsub kkk (List.mem_cons_self kkk L2)
      have h4 : (checkAuthStep st kkk).2.2.2 =
          if selAuthn (goToLower kkk) then
            mapInsert st.2.2.2 (stripName kkk) (hdrLookupD st.2.2.2 kkk)
          else st.2.2.2 := rfl
      have hag2 : ∀ k ∈ mapKeys m,
          hdrLookupD (checkAuthStep st kkk).2.2.2 k = hdrLookupD m k := by
        intro k hk
        rw [h4]
        by_cases hselk : selAuthn (goToLower kkk) = true
        · rw [if_pos hselk]
          have hfr : stripName kkk ∉ mapKeys m := hfresh kkk hkm hselk
          rw [hdrLookupD_mapInsert_ne _ _ _ k (fun hx => hfr (by rw [← hx]; exact hk))]
          exact hag k hk
        · rw [if_neg hselk]
          exact hag k hk
      have htr2 : ∀ kv2 ∈ m, selAuthn (goToLower kv2.1) = true → kv2.1 ∉ L2 →
          hdrLookupD (checkAuthStep st kkk).2.2.2 (stripName kv2.1) = kv2.2 := by
        intro kv2 hkv2 hsel2 hnot2
        rw [h4]
        by_cases heq : kv2.1 = kkk
        · have hselk : selAuthn (goToLower kkk) = true := heq ▸ hsel2
          rw [if_pos hselk]
          have hvals : hdrLookupD st.2.2.2 kv2.1 = kv2.2 := by
            rw [heq, hag kkk hkm, ← heq]
            unfold hdrLookupD
            rw [mapLookup_of_nodup_mem hmn hkv2]
            rfl
          rw [← heq, hdrLookupD_mapInsert_self]
          exact hvals
        · by_cases hselk : selAuthn (goToLower kkk) = true
          · rw [if_pos hselk]
            have hne : stripName kv2.1 ≠ stripName kkk := by
              intro hx
              exact heq (hinj kv2.1 (List.mem_map_of_mem _ hkv2) kkk hkm hsel2 hselk hx)
            rw [hdrLookupD_mapInsert_ne _ _ _ _ hne]
            exact htr kv2 hkv2 hsel2 (fun hmem => by
              cases List.mem_cons.mp hmem with
              | inl h => exact heq h
              | inr h => exact hnot2 h)
          · rw [if_neg hselk]
            exact htr kv2 hkv2 hsel2 (fun hmem => by
              cases List.mem_cons.mp hmem with
              | inl h => exact heq h
              | inr h => exact hnot2 h)
      simp only [List.foldl_cons]
      exact ih (checkAuthStep st kkk) (List.nodup_cons.mp hnd).2
        (fun k hk => hsub k (List.mem_cons_of_mem kkk hk)) hag2 htr2 kv hkv hsel

/-- Claim C9 (amended): when the cms-auth-status entry is not the NONE
shortcut, checkAuthentication mutates the header map before the signature
comparison: for every header whose lower-cased name starts with cms-authn
(other than cms-authn-hmac) its value list is stored under the name with the
first cms-authn- removed, whatever the boolean outcome, provided the stripped
names do not collide with existing header names or with each other. -/
theorem checkAuthentication_mutates (a : CMSAuth) (hs : Headers)
    (hmn : (mapKeys hs).Nodup)
    (hstat : hdrLookupD hs (gostr "cms-auth-status") ≠ [gostr "NONE"])
    (hfresh : ∀ k ∈ mapKeys hs, selAuthn (goToLower k) = true → stripName k ∉ mapKeys hs)
    (hinj : ∀ k1 ∈ mapKeys hs, ∀ k2 ∈ mapKeys hs, selAuthn (goToLower k1) = true →
      selAuthn (goToLower k2) = true → stripName k1 = stripName k2 → k1 = k2) :
    ∀ kv ∈ hs, selAuthn (goToLower kv.1) = true →
      hdrLookupD (checkAuthentication a hs).2 (stripName kv.1) = kv.2 := by
  intro kv hkv hsel
  have hb : (hdrLookupD hs (gostr "cms-auth-status") == [gostr "NONE"]) = false :=
    beq_eq_false_iff_ne.mpr hstat
  simp only [checkAuthentication, hb, Bool.false_eq_true, if_false]
  show hdrLookupD (checkAuthLoop hs).2.2.2 (stripName kv.1) = kv.2
  unfold checkAuthLoop
  refine foldl_checkAuthStep_stores hs hmn hfresh hinj (sortStrings (mapKeys hs))
    ([], [], [], hs) (sortStrings_nodup hmn) (fun k hk => sortStrings_mem.mp hk)
    (fun k _ => rfl) ?_ kv hkv hsel
  intro kv2 hkv2 _ hnot
  exact absurd (sortStrings_mem.mpr (List.mem_map_of_mem _ hkv2)) hnot

/-- Witness for C9 (amended): in hsGood the login header is republished under
the stripped name login. -/
theorem checkAuthentication_mutates_witness :
    hdrLookupD (checkAuthentication a0 hsGood).2 (stripName (gostr "Cms-Authn-Login")) =
      [gostr "alice"] :=
  checkAuthentication_mutates a0 hsGood (by decide) (by decide) (by decide) (by decide)
    (gostr "Cms-Authn-Login", [gostr "alice"]) (by decide) (by decide)

/-- Counterexample for C9: in hsMut the header cms-authn-x holds [b], but the
final map holds [a] under the stripped name x (and under cms-authn-x), because
the header cms-authn-cms-authn-x strips to cms-authn-x and overwrites it before
it is read; the claim that every cms-authn header gets its own value list
stored under its stripped name is false. -/
theorem checkAuthentication_mutates_cex :
    hdrLookupD hsMut (gostr "cms-authn-x") = [gostr "b"] ∧
    hdrLookupD (checkAuthentication a0 hsMut).2 (gostr "x") = [gostr "a"] ∧
    hdrLookupD (checkAuthentication a0 hsMut).2 (gostr "cms-authn-x") = [gostr "a"] := by
  refine ⟨by decide, ?_, ?_⟩ <;> rfl

theorem goToLower_length (s : GoStr) : (goToLower s).length = s.length := by
  simp [goToLower]

theorem pureStep_fold_ps (m : Headers) :
    ∀ (L : List GoStr) (p s h : GoStr),
      ((L.foldl (pureStep m) (p, s, h)).1, (L.foldl (pureStep m) (p, s, h)).2.1) =
        (L.filter (fun k => selHdr (goToLower k))).foldl (contribStep m) (p, s) := by
  intro L
  induction L with
  | nil => intro p s h; rfl
  | cons kkk L2 ih =>
      intro p s h
      cases hsel : selHdr (goToLower kkk) with
      | true =>
          simp only [List.foldl_cons, List.filter_cons, hsel, if_pos]
          rw [show pureStep m (p, s, h) kkk =
              ((contribStep m (p, s) kkk).1, (contribStep m (p, s) kkk).2,
                if goToLower kkk == gostr "cms-authn-hmac" then (hdrLookupD m kkk).headD []
                else h) from by simp [pureStep, contribStep, hsel]]
          exact ih _ _ _
      | false =>
          simp only [List.foldl_cons, List.filter_cons, hsel, Bool.false_eq_true, if_false]
          rw [show pureStep m (p, s, h) kkk =
              (p, s, if goToLower kkk == gostr "cms-authn-hmac" then (hdrLookupD m kkk).headD []
                else h) from by simp [pureStep, hsel]]
          exact ih _ _ _

theorem contrib_eq_getHmacStep (m hs : Headers) :
    ∀ (L : List GoStr),
      (∀ k ∈ L, canonicalMIMEHeaderKey k = k ∧ hdrLookupD m k = hdrLookupD hs k) →
      ∀ ps : GoStr × GoStr, L.foldl (contribStep m) ps = L.foldl (getHmacStep hs) ps := by
  intro L
  induction L with
  | nil => exact fun _ ps => rfl
  | cons kkk L2 ih =>
      intro hk ps
      obtain ⟨hc, hl⟩ := hk kkk (List.mem_cons_self kkk L2)
      simp only [List.foldl_cons]
      rw [show contribStep m ps kkk = getHmacStep hs ps kkk from by
        simp only [contribStep, getHmacStep, headerGet, hc, hl, goToLower_length]]
      exact ih (fun k hkk => hk k (List.mem_cons_of_mem kkk hkk)) _

/-- Claim C3 (amended): signing with GetHmac and verifying with the same
CMSAuth succeeds for every header map whose selected trust header names are
in canonical MIME casing (so that the Header.Get lookup of GetHmac finds
them), whose cms-auth-status entry sits under the exact lower-case name, in
which only the exact name cms-authn-hmac lowers to cms-authn-hmac, and whose
stripped cms-authn names collide neither with existing names nor with
cms-authn-hmac; the digest is stored under the exact name cms-authn-hmac. -/
theorem checkAuthentication_roundtrip (a : CMSAuth) (hs : Headers) (svs : List GoStr)
    (hafile : a.afile ≠ [])
    (hstat : mapLookup hs (gostr "cms-auth-status") = some svs)
    (hcanon : ∀ kv ∈ hs, selHdr (goToLower kv.1) = true → canonicalMIMEHeaderKey kv.1 = kv.1)
    (hhname : ∀ kv ∈ hs, goToLower kv.1 = gostr "cms-authn-hmac" → kv.1 = gostr "cms-authn-hmac")
    (hfresh : ∀ kv ∈ hs, selAuthn (goToLower kv.1) = true →
      stripName kv.1 ∉ mapKeys hs ∧ stripName kv.1 ≠ gostr "cms-authn-hmac") :
    (checkAuthentication a (mapInsert hs (gostr "cms-authn-hmac") [GetHmac a hs])).1 = true := by
  set m2 := mapInsert hs (gostr "cms-authn-hmac") [GetHmac a hs] with hm2
  have hkm2 : ∀ k, k ∈ mapKeys m2 ↔ k ∈ mapKeys hs ∨ k = gostr "cms-authn-hmac" := by
    intro k
    rw [hm2]
    by_cases hmem : gostr "cms-authn-hmac" ∈ mapKeys hs
    · rw [mapKeys_mapInsert_mem hmem]
      exact ⟨Or.inl, fun h => h.elim id (fun hx => hx ▸ hmem)⟩
    · rw [mapKeys_mapInsert_not_mem hmem]
      simp [List.mem_append]
  have hself : hdrLookupD m2 (gostr "cms-authn-hmac") = [GetHmac a hs] := by
    rw [hm2]
    exact hdrLookupD_mapInsert_self hs _ _
  have hstat2 : hdrLookupD m2 (gostr "cms-auth-status") = svs := by
    rw [hm2, hdrLookupD_mapInsert_ne hs _ _ _ (by decide)]
    unfold hdrLookupD
    rw [hstat]
    rfl
  have hsel_ne_hk : ∀ k : GoStr, selHdr (goToLower k) = true → k ≠ gostr "cms-authn-hmac" := by
    intro k hs1 hx
    rw [hx] at hs1
    exact absurd hs1 (by decide)
  have hlook_sel : ∀ k : GoStr, selHdr (goToLower k) = true →
      hdrLookupD m2 k = hdrLookupD hs k := by
    intro k h
    rw [hm2]
    exact hdrLookupD_mapInsert_ne hs _ _ k (hsel_ne_hk k h)
  have hfresh2 : ∀ k ∈ mapKeys m2, selAuthn (goToLower k) = true → stripName k ∉ mapKeys m2 := by
    intro k hk2 hsel2
    rcases (hkm2 k).mp hk2 with hmem | rfl
    · obtain ⟨kv, hkv, rfl⟩ := List.mem_map.mp hmem
      obtain ⟨hf1, hf2⟩ := hfresh kv hkv hsel2
      intro hx
      rcases (hkm2 _).mp hx with h1 | h2
      · exact hf1 h1
      · exact hf2 h2
    · exact absurd hsel2 (by decide)
  have e := foldl_checkAuthStep_pure m2 (sortStrings (mapKeys m2)) m2 [] [] []
    (fun k hk2 => sortStrings_mem.mp hk2) (fun k _ => rfl) hfresh2
  by_cases hnone : (svs == [gostr "NONE"]) = true
  · simp [checkAuthentication, hstat2, hnone]
  · have hnone2 : (svs == [gostr "NONE"]) = false := by
      revert hnone
      cases svs == [gostr "NONE"] <;> simp
    have hv_eq : (checkAuthLoop m2).2.2.1 = GetHmac a hs := by
      unfold checkAuthLoop
      rw [e.2.2]
      rw [pureStep_fold_hv m2 (sortStrings (mapKeys m2)) ([], [], []) ?only ?mem]
      case only =>
        intro k hk2 hlow
        rcases (hkm2 k).mp (sortStrings_mem.mp hk2) with hmem | rfl
        · obtain ⟨kv, hkv, rfl⟩ := List.mem_map.mp hmem
          exact hhname kv hkv hlow
        · rfl
      case mem => exact sortStrings_mem.mpr ((hkm2 _).mpr (Or.inr rfl))
      rw [hself]
      rfl
    have hkf : (mapKeys m2).filter (fun k => selHdr (goToLower k)) =
        (mapKeys hs).filter (fun k => selHdr (goToLower k)) := by
      rw [hm2]
      by_cases hmem : gostr "cms-authn-hmac" ∈ mapKeys hs
      · rw [mapKeys_mapInsert_mem hmem]
      · rw [mapKeys_mapInsert_not_mem hmem, List.filter_append]
        rw [show List.filter (fun k => selHdr (goToLower k)) [gostr "cms-authn-hmac"] = [] from by decide]
        rw [List.append_nil]
    have hps : ((checkAuthLoop m2).1, (checkAuthLoop m2).2.1) =
        (sortStrings ((mapKeys hs).filter (fun h => selHdr (goToLower h)))).foldl
          (getHmacStep hs) ([], []) := by
      unfold checkAuthLoop
      rw [show (List.foldl checkAuthStep ([], [], [], m2) (sortStrings (mapKeys m2))).1 =
          (List.foldl (pureStep m2) ([], [], []) (sortStrings (mapKeys m2))).1 from e.1]
      rw [show (List.foldl checkAuthStep ([], [], [], m2) (sortStrings (mapKeys m2))).2.1 =
          (List.foldl (pureStep m2) ([], [], []) (sortStrings (mapKeys m2))).2.1 from e.2.1]
      rw [pureStep_fold_ps m2 (sortStrings (mapKeys m2)) [] [] []]
      rw [sortStrings_filter, hkf]
      refine contrib_eq_getHmacStep m2 hs _ ?_ _
      intro k hk2
      have hk3 := List.mem_filter.mp (sortStrings_mem.mp hk2)
      obtain ⟨kv, hkv, rfl⟩ := List.mem_map.mp hk3.1
      exact ⟨hcanon kv hkv hk3.2, hlook_sel kv.1 hk3.2⟩
    have hlen : (a.afile.length != 0) = true := by
      rw [bne_iff_ne]
      intro h0
      exact hafile (List.length_eq_zero.mp h0)
    simp only [checkAuthentication, hstat2, hnone2, Bool.false_eq_true, if_false]
    rw [if_pos hlen, hv_eq]
    have hps1 : (checkAuthLoop m2).1 =
        ((sortStrings ((mapKeys hs).filter (fun h => selHdr (goToLower h)))).foldl
          (getHmacStep hs) ([], [])).1 := congrArg Prod.fst hps
    have hps2 : (checkAuthLoop m2).2.1 =
        ((sortStrings ((mapKeys hs).filter (fun h => selHdr (goToLower h)))).foldl
          (getHmacStep hs) ([], [])).2 := congrArg Prod.snd hps
    rw [hps1, hps2]
    rw [show GetHmac a hs = bytesToHexGo (hmacSha1 a.hkey
      (((sortStrings ((mapKeys hs).filter (fun h => selHdr (goToLower h)))).foldl
          (getHmacStep hs) ([], [])).1 ++ [35] ++
        ((sortStrings ((mapKeys hs).filter (fun h => selHdr (goToLower h)))).foldl
          (getHmacStep hs) ([], [])).2)) from rfl]
    exact beq_self_eq_true _

/-- Witness for C3 (amended): hsGood with its canonical-cased trust header
signs and verifies with the same keyed CMSAuth. -/
theorem checkAuthentication_roundtrip_witness :
    (checkAuthentication a0 (mapInsert hsGood (gostr "cms-authn-hmac") [GetHmac a0 hsGood])).1 = true :=
  checkAuthentication_roundtrip a0 hsGood [gostr "ok"] (by decide) (by decide)
    (by decide) (by decide) (by decide)

/-- Counterexample for C3: hsBad carries the status entry and a trust header
under the all-lower-case name cms-authn-login; GetHmac reads that header
through Header.Get, which canonicalizes the name to Cms-Authn-Login and finds
nothing, so the stored digest does not match what checkAuthentication
computes and the round trip fails. -/
theorem checkAuthentication_roundtrip_cex :
    mapLookup hsBad (gostr "cms-auth-status") = some [gostr "ok"] ∧
    mapLookup hsBad (gostr "cms-authn-login") = some [gostr "alice"] ∧
    a0.afile ≠ [] ∧
    (checkAuthentication a0 (mapInsert hsBad (gostr "cms-authn-hmac") [GetHmac a0 hsBad])).1 = false := by
  refine ⟨by decide, by decide, by decide, ?_⟩
  rfl

theorem splitSlash_no_slash : ∀ (s : GoStr), ∀ p ∈ splitSlash s, (47 : Nat) ∉ p := by
  intro s
  induction s with
  | nil =>
      intro p hp
      rw [show splitSlash [] = [[]] from rfl] at hp
      simp at hp
      simp [hp]
  | cons a t ih =>
      intro p hp
      by_cases ha : a = 47
      · rw [show splitSlash (a :: t) = if a = 47 then [] :: splitSlash t else _ from rfl,
          if_pos ha] at hp
        cases List.mem_cons.mp hp with
        | inl h => simp [h]
        | inr h => exact ih p h
      · rw [show splitSlash (a :: t) = if a = 47 then [] :: splitSlash t else
            (match splitSlash t with
              | h :: r => (a :: h) :: r
              | [] => [[a]]) from rfl, if_neg ha] at hp
        cases hsp : splitSlash t with
        | nil =>
            rw [hsp] at hp
            simp only [List.mem_singleton] at hp
            subst hp
            simp only [List.mem_singleton]
            exact fun h => ha h.symm
        | cons h r =>
            rw [hsp] at hp
            cases List.mem_cons.mp hp with
            | inl hh =>
                subst hh
                intro hmem
                cases List.mem_cons.mp hmem with
                | inl h1 => exact ha h1.symm
                | inr h1 => exact ih h (hsp ▸ List.mem_cons_self h r) h1
            | inr hh => exact ih p (hsp ▸ List.mem_cons_of_mem h hh)

theorem splitSlash_ne_nil (s : GoStr) : splitSlash s ≠ [] := by
  induction s with
  | nil => simp [splitSlash]
  | cons a t ih =>
      by_cases ha : a = 47
      · simp [splitSlash, ha]
      · rw [show splitSlash (a :: t) = if a = 47 then [] :: splitSlash t else
            (match splitSlash t with
              | h :: r => (a :: h) :: r
              | [] => [[a]]) from rfl, if_neg ha]
        cases hsp : splitSlash t <;> simp

theorem splitSlash_of_no_slash : ∀ (x : GoStr), (47 : Nat) ∉ x → splitSlash x = [x] := by
  intro x
  induction x with
  | nil => intro _; rfl
  | cons a t ih =>
      intro h
      have ha : ¬ a = 47 := fun hx => h (by rw [hx]; exact List.mem_cons_self 47 t)
      rw [show splitSlash (a :: t) = if a = 47 then [] :: splitSlash t else
          (match splitSlash t with
            | h :: r => (a :: h) :: r
            | [] => [[a]]) from rfl, if_neg ha, ih (fun hx => h (List.mem_cons_of_mem a hx))]

theorem splitSlash_append_slash : ∀ (x t : GoStr), (47 : Nat) ∉ x →
    splitSlash (x ++ 47 :: t) = x :: splitSlash t := by
  intro x
  induction x with
  | nil =>
      intro t _
      rw [List.nil_append, show splitSlash (47 :: t) = if (47 : Nat) = 47 then [] :: splitSlash t else
          (match splitSlash t with
            | h :: r => ((47 : Nat) :: h) :: r
            | [] => [[(47 : Nat)]]) from rfl, if_pos rfl]
  | cons a x2 ih =>
      intro t h
      have ha : ¬ a = 47 := fun hx => h (by rw [hx]; exact List.mem_cons_self 47 x2)
      rw [List.cons_append, show splitSlash (a :: (x2 ++ 47 :: t)) = if a = 47 then [] :: splitSlash (x2 ++ 47 :: t) else
          (match splitSlash (x2 ++ 47 :: t) with
            | h :: r => (a :: h) :: r
            | [] => [[a]]) from rfl, if_neg ha,
        ih t (fun hx => h (List.mem_cons_of_mem a hx))]

theorem splitSlash_joinSlash : ∀ (parts : List GoStr), parts ≠ [] →
    (∀ p ∈ parts, (47 : Nat) ∉ p) → splitSlash (joinSlash parts) = parts := by
  intro parts
  induction parts with
  | nil => intro h _; exact absurd rfl h
  | cons x rest ih =>
      intro _ hsf
      cases rest with
      | nil =>
          rw [show joinSlash [x] = x from rfl]
          exact splitSlash_of_no_slash x (hsf x (List.mem_cons_self x []))
      | cons z r2 =>
          rw [show joinSlash (x :: z :: r2) = x ++ 47 :: joinSlash (z :: r2) from rfl,
            splitSlash_append_slash x _ (hsf x (List.mem_cons_self x _)),
            ih (by simp) (fun p hp => hsf p (List.mem_cons_of_mem x hp))]

theorem containsStr_iff (l : List GoStr) (v : GoStr) : containsStr l v = true ↔ v ∈ l := by
  simp [containsStr, List.any_eq_true, beq_iff_eq]

theorem dedupeFold_split : ∀ (l acc : List GoStr),
    ∃ l2, l.foldl (fun acc value => if containsStr acc value then acc else acc ++ [value]) acc =
      acc ++ l2 ∧ l2.Sublist l := by
  intro l
  induction l with
  | nil => exact fun acc => ⟨[], by simp, List.nil_sublist []⟩
  | cons v l2 ih =>
      intro acc
      simp only [List.foldl_cons]
      cases hc : containsStr acc v with
      | true =>
          obtain ⟨l3, heq, hsub⟩ := ih acc
          rw [if_pos rfl]
          exact ⟨l3, heq, hsub.cons v⟩
      | false =>
          rw [if_neg (by simp)]
          obtain ⟨l3, heq, hsub⟩ := ih (acc ++ [v])
          refine ⟨v :: l3, ?_, hsub.cons₂ v⟩
          rw [heq, List.append_assoc]
          rfl

theorem dedupeFold_nodup : ∀ (l acc : List GoStr), acc.Nodup →
    (l.foldl (fun acc value => if containsStr acc value then acc else acc ++ [value]) acc).Nodup := by
  intro l
  induction l with
  | nil => exact fun acc h => h
  | cons v l2 ih =>
      intro acc h
      simp only [List.foldl_cons]
      cases hc : containsStr acc v with
      | true => rw [if_pos rfl]; exact ih acc h
      | false =>
          rw [if_neg (by simp)]
          refine ih (acc ++ [v]) ?_
          rw [List.nodup_append]
          refine ⟨h, List.nodup_singleton v, ?_⟩
          rw [List.disjoint_singleton]
          intro hmem
          rw [← containsStr_iff] at hmem
          rw [hmem] at hc
          cases hc

theorem dedupeFold_id : ∀ (l acc : List GoStr), (acc ++ l).Nodup →
    l.foldl (fun acc value => if containsStr acc value then acc else acc ++ [value]) acc = acc ++ l := by
  intro l
  induction l with
  | nil => intro acc _; simp
  | cons v l2 ih =>
      intro acc h
      have hvna : v ∉ acc := by
        rw [List.nodup_append] at h
        exact fun hmem => h.2.2 hmem (List.mem_cons_self v l2)
      have hc : containsStr acc v = false := by
        cases hc2 : containsStr acc v with
        | false => rfl
        | true => exact absurd (containsStr_iff acc v |>.mp hc2) hvna
      simp only [List.foldl_cons, hc, Bool.false_eq_true, if_false]
      rw [ih (acc ++ [v]) (by rw [List.append_assoc]; simpa using h), List.append_assoc]
      rfl

theorem dedupeFold_ne_nil (l : List GoStr) (h : l ≠ []) :
    l.foldl (fun acc value => if containsStr acc value then acc else acc ++ [value]) [] ≠ [] := by
  cases l with
  | nil => exact absurd rfl h
  | cons v l2 =>
      simp only [List.foldl_cons]
      rw [show containsStr [] v = false from rfl, if_neg (by simp)]
      obtain ⟨l3, heq, _⟩ := dedupeFold_split l2 ([] ++ [v])
      rw [heq]
      simp

theorem replaceAllFuel_nil (old new : GoStr) (f : Nat) : replaceAllFuel old new f [] = [] := by
  cases f <;> rfl

theorem replaceAllFuel_id : ∀ (fuel : Nat) (s : GoStr),
    List.Chain' (fun a b => ¬(a = 47 ∧ b = 47)) s →
    replaceAllFuel [47, 47] [47] fuel s = s := by
  intro fuel
  induction fuel with
  | zero => exact fun s _ => rfl
  | succ f ih =>
      intro s hch
      cases s with
      | nil => rfl
      | cons a t =>
          cases t with
          | nil =>
              have hlw : leadsWith [47, 47] [a] = false := by
                simp [leadsWith]
              simp only [replaceAllFuel, hlw, Bool.false_eq_true, if_false]
              rw [replaceAllFuel_nil]
          | cons b t2 =>
              rw [List.chain'_cons] at hch
              have hlw : leadsWith [47, 47] (a :: b :: t2) = false := by
                by_cases h47a : a = 47
                · have hb : (47 == b) = false :=
                    beq_eq_false_iff_ne.mpr (fun hx => hch.1 ⟨h47a, hx.symm⟩)
                  simp [leadsWith, hb]
                · have hA : (47 == a) = false :=
                    beq_eq_false_iff_ne.mpr (fun hx => h47a hx.symm)
                  simp [leadsWith, hA]
              simp only [replaceAllFuel, hlw, Bool.false_eq_true, if_false]
              rw [ih (b :: t2) hch.2]

theorem chain'_of_no47 {x : GoStr} (h : (47 : Nat) ∉ x) :
    List.Chain' (fun a b => ¬(a = 47 ∧ b = 47)) x := by
  induction x with
  | nil => trivial
  | cons a t ih =>
      rw [List.chain'_cons']
      constructor
      · intro y _ hcon
        exact h (by rw [← hcon.1]; exact List.mem_cons_self a t)
      · exact ih (fun hx => h (List.mem_cons_of_mem a hx))

theorem joinSlash_good : ∀ (parts : List GoStr), (∀ p ∈ parts, (47 : Nat) ∉ p) →
    (∀ p ∈ parts, p ≠ []) →
    List.Chain' (fun a b => ¬(a = 47 ∧ b = 47)) (joinSlash parts) ∧
      ∀ y ∈ (joinSlash parts).head?, y ≠ 47 := by
  intro parts
  induction parts with
  | nil => exact fun _ _ => ⟨trivial, by simp [joinSlash]⟩
  | cons x rest ih =>
      intro hsf hne
      cases rest with
      | nil =>
          refine ⟨chain'_of_no47 (hsf x (List.mem_cons_self x [])), ?_⟩
          intro y hy h47
          exact hsf x (List.mem_cons_self x []) (by rw [← h47]; exact List.mem_of_mem_head? hy)
      | cons z r2 =>
          have ihx := ih (fun p hp => hsf p (List.mem_cons_of_mem x hp))
            (fun p hp => hne p (List.mem_cons_of_mem x hp))
          constructor
          · rw [show joinSlash (x :: z :: r2) = x ++ 47 :: joinSlash (z :: r2) from rfl,
              List.chain'_append]
            refine ⟨chain'_of_no47 (hsf x (List.mem_cons_self x _)), ?_, ?_⟩
            · rw [List.chain'_cons']
              exact ⟨fun y hy hcon => ihx.2 y hy hcon.2, ihx.1⟩
            · intro w hw y hy
              intro hcon
              have hwx : w ∈ x := by
                obtain ⟨hne2, heq⟩ := List.mem_getLast?_eq_getLast hw
                rw [heq]
                exact List.getLast_mem hne2
              exact hsf x (List.mem_cons_self x _) (by rw [← hcon.1]; exact hwx)
          · intro y hy
            rw [show joinSlash (x :: z :: r2) = x ++ 47 :: joinSlash (z :: r2) from rfl,
              List.head?_append_of_ne_nil x (hne x (List.mem_cons_self x _))] at hy
            intro h47
            exact hsf x (List.mem_cons_self x _) (by rw [← h47]; exact List.mem_of_mem_head? hy)

theorem joinSlash_chain : ∀ (parts : List GoStr), (∀ p ∈ parts, (47 : Nat) ∉ p) →
    (∀ p ∈ parts.tail, p ≠ []) →
    List.Chain' (fun a b => ¬(a = 47 ∧ b = 47)) (joinSlash parts) := by
  intro parts hsf hne
  cases parts with
  | nil => trivial
  | cons x rest =>
      cases rest with
      | nil => exact chain'_of_no47 (hsf x (List.mem_cons_self x []))
      | cons z r2 =>
          have hgood := joinSlash_good (z :: r2) (fun p hp => hsf p (List.mem_cons_of_mem x hp)) hne
          rw [show joinSlash (x :: z :: r2) = x ++ 47 :: joinSlash (z :: r2) from rfl,
            List.chain'_append]
          refine ⟨chain'_of_no47 (hsf x (List.mem_cons_self x _)), ?_, ?_⟩
          · rw [List.chain'_cons']
            exact ⟨fun y hy hcon => hgood.2 y hy hcon.2, hgood.1⟩
          · intro w hw y hy
            intro hcon
            have hwx : w ∈ x := by
              obtain ⟨hne2, heq⟩ := List.mem_getLast?_eq_getLast hw
              rw [heq]
              exact List.getLast_mem hne2
            exact hsf x (List.mem_cons_self x _) (by rw [← hcon.1]; exact hwx)

theorem le_nil_eq {x : GoStr} (h : x ≤ ([] : GoStr)) : x = [] := by
  rcases le_iff_lt_or_eq.mp h with hlt | heq
  · exact absurd hlt (List.Lex.not_nil_right _ _)
  · exact heq

theorem replaceAll_doubleslash_id {j : GoStr}
    (h : List.Chain' (fun a b => ¬(a = 47 ∧ b = 47)) j) :
    replaceAllGo j (gostr "//") (gostr "/") = j := by
  rw [show gostr "//" = [47, 47] from rfl, show gostr "/" = [47] from rfl]
  rw [show replaceAllGo j [47, 47] [47] = replaceAllFuel [47, 47] [47] j.length j from rfl]
  exact replaceAllFuel_id j.length j h

/-- Claim C7: GetSortedDN is idempotent. -/
theorem getSortedDN_idempotent (dn : GoStr) : GetSortedDN (GetSortedDN dn) = GetSortedDN dn := by
  obtain ⟨l2, heq, hsub⟩ := dedupeFold_split (sortStrings (splitSlash dn)) []
  have hPeq : dedupeParts (sortStrings (splitSlash dn)) = l2 := by
    rw [show dedupeParts (sortStrings (splitSlash dn)) =
      (sortStrings (splitSlash dn)).foldl
        (fun acc value => if containsStr acc value then acc else acc ++ [value]) [] from rfl, heq]
    rfl
  have hPsub : (dedupeParts (sortStrings (splitSlash dn))).Sublist (sortStrings (splitSlash dn)) := by
    rw [hPeq]
    exact hsub
  have hPsorted : List.Sorted (· ≤ ·) (dedupeParts (sortStrings (splitSlash dn))) :=
    List.Pairwise.sublist hPsub (sortStrings_sorted (splitSlash dn))
  have hPnodup : (dedupeParts (sortStrings (splitSlash dn))).Nodup :=
    dedupeFold_nodup (sortStrings (splitSlash dn)) [] List.nodup_nil
  have hPsf : ∀ p ∈ dedupeParts (sortStrings (splitSlash dn)), (47 : Nat) ∉ p :=
    fun p hp => splitSlash_no_slash dn p (sortStrings_mem.mp (hPsub.subset hp))
  have hPne : dedupeParts (sortStrings (splitSlash dn)) ≠ [] := by
    refine dedupeFold_ne_nil (sortStrings (splitSlash dn)) ?_
    intro hnil
    have hperm := sortStrings_perm (splitSlash dn)
    rw [hnil] at hperm
    exact splitSlash_ne_nil dn hperm.nil_eq.symm
  have hPtail : ∀ p ∈ (dedupeParts (sortStrings (splitSlash dn))).tail, p ≠ [] := by
    cases hP : dedupeParts (sortStrings (splitSlash dn)) with
    | nil => simp
    | cons p0 rest =>
        intro p hp hpnil
        rw [hP] at hPsorted hPnodup
        have hle : p0 ≤ p := (List.sorted_cons.mp hPsorted).1 p hp
        have hp0 : p0 = [] := le_nil_eq (hpnil ▸ hle)
        exact (List.nodup_cons.mp hPnodup).1 (by rw [hp0, ← hpnil]; exact hp)
  have hchain := joinSlash_chain (dedupeParts (sortStrings (splitSlash dn))) hPsf hPtail
  have step1 : GetSortedDN dn = joinSlash (dedupeParts (sortStrings (splitSlash dn))) := by
    show replaceAllGo (joinSlash (dedupeParts (sortStrings (splitSlash dn)))) (gostr "//") (gostr "/") = _
    exact replaceAll_doubleslash_id hchain
  have step2 : GetSortedDN (joinSlash (dedupeParts (sortStrings (splitSlash dn)))) =
      joinSlash (dedupeParts (sortStrings (splitSlash dn))) := by
    show replaceAllGo (joinSlash (dedupeParts (sortStrings (splitSlash
      (joinSlash (dedupeParts (sortStrings (splitSlash dn)))))))) (gostr "//") (gostr "/") = _
    rw [splitSlash_joinSlash _ hPne hPsf]
    rw [show sortStrings (dedupeParts (sortStrings (splitSlash dn))) =
      dedupeParts (sortStrings (splitSlash dn)) from List.Sorted.insertionSort_eq hPsorted]
    rw [show dedupeParts (dedupeParts (sortStrings (splitSlash dn))) =
        dedupeParts (sortStrings (splitSlash dn)) from by
      rw [show dedupeParts (dedupeParts (sortStrings (splitSlash dn))) =
        (dedupeParts (sortStrings (splitSlash dn))).foldl
          (fun acc value => if containsStr acc value then acc else acc ++ [value]) [] from rfl]
      exact dedupeFold_id _ [] (by simpa using hPnodup)]
    exact replaceAll_doubleslash_id hchain
  rw [step1, step2]
